import Mathlib

/-!
Verification of the circuit evaluation engine in `run.py`.

The program evaluates a gate-level netlist (NOT / AND / DFF cells) cycle by
cycle, once over plain booleans (`CleartextComputer`) and once over an
abstract boolean backend whose values may be TFHE ciphertexts
(`EncryptedComputer`).  We shallowly embed:

* the graph built by the `__main__` loader (networkx `DiGraph` with
  per-node `type` / `input_node` attributes and insertion-ordered
  predecessor lists),
* the loader itself (`loadCell` / `loadCells`, mirroring the cell loop),
* the structural checks (`is_weakly_connected`, `is_directed_acyclic_graph`),
* both evaluators' `reset` / `step` / `get_bits`, and `bits_to_int`.

Node values are total functions `Nat → value`; in the source every node of
the graph receives a value at `reset`, and the only reads are at graph
nodes, so totality is observationally faithful.  Python assertion failures
and `KeyError`s are modelled with `Except Err`.
-/

/-- Pointwise update of a function at one node, modelling an attribute
assignment `G.nodes[n][attr] = x`. -/
def updF {α : Type} (f : Nat → α) (n : Nat) (x : α) : Nat → α :=
  fun m => if m = n then x else f m

/-- The string tags used by `run.py` for cell / node types. -/
def tNOT : String := "NOT"

def tAND : String := "AND"

def tDFF : String := "DFF"

/-- Errors: Python `AssertionError`s and `KeyError`s raised by `run.py`.
`notOne` is the assertion in `assert_only_one`; `clockMismatch` is
`assert c == clk_bit`; `keyError` is a lookup of a missing graph node;
`notConnected` / `notAcyclic` are the two structural asserts;
`badPreds` is the predecessor-count assertion in `step`;
`unhandledEval` is the `assert False` for an unhandled node type. -/
inductive Err : Type where
  | notOne : Err
  | clockMismatch : Err
  | keyError : Nat → Err
  | notConnected : Err
  | notAcyclic : Err
  | badPreds : Nat → Err
  | unhandledEval : Nat → String → Err
deriving DecidableEq, Repr

/-- `bits_to_int` (run.py lines 16-23): `acc <<= 1; if b: acc += 1` over
`reversed(bits)`, so the first element is the least-significant bit. -/
def bits_to_int (bits : List Bool) : Nat :=
  bits.reverse.foldl (fun acc b => if b then acc * 2 + 1 else acc * 2) 0

/-- A circuit as consumed by the evaluators: the graph's node attributes
(`typ` = the `type` attribute, `preds` = insertion-ordered predecessor
lists, `input_node` for DFFs), the node set, the topological order used by
`step` (the source recomputes `dag.topological_sort(self.G)` every call on
the unchanging graph; we capture the resulting fixed order), and the
`dffs` commit sequence. -/
structure Circuit : Type where
  typ : Nat → Option String
  preds : Nat → List Nat
  input_node : Nat → Option Nat
  nodes : List Nat
  topo : List Nat
  dffs : List Nat

/-- `CleartextComputer.reset` (lines 31-33): every node's value becomes
`False`. -/
def resetC : Nat → Bool := fun _ => false

/-- The combinational phase of `CleartextComputer.step` (lines 36-55):
fold over the topological order; untyped nodes are skipped, `DFF` nodes
keep their value (their `assert 'value' in attrs` always holds after
`reset` since values are total here), `NOT` and `AND` assert their
predecessor count and recompute, any other tag hits `assert False`. -/
def combC (c : Circuit) : List Nat → (Nat → Bool) → Except Err (Nat → Bool)
  | [], v => .ok v
  | n :: rest, v =>
    match c.typ n with
    | none => combC c rest v
    | some t =>
      if t = tDFF then combC c rest v
      else if t = tNOT then
        match c.preds n with
        | [p] => combC c rest (updF v n (!(v p)))
        | _ => .error (.badPreds n)
      else if t = tAND then
        match c.preds n with
        | [p0, p1] => combC c rest (updF v n (v p0 && v p1))
        | _ => .error (.badPreds n)
      else .error (.unhandledEval n t)

/-- The register commit loop of `CleartextComputer.step` (lines 56-59):
sequentially, for each `n` in `dffs`,
`G.nodes[n]['value'] = G.nodes[G.nodes[n]['input_node']]['value']`.
Looking up a node absent from the graph raises `KeyError`. -/
def commitC (c : Circuit) : List Nat → (Nat → Bool) → Except Err (Nat → Bool)
  | [], v => .ok v
  | n :: rest, v =>
    if n ∈ c.nodes then
      match c.input_node n with
      | none => .error (.keyError n)
      | some d =>
        if d ∈ c.nodes then commitC c rest (updF v n (v d))
        else .error (.keyError d)
    else .error (.keyError n)

/-- `CleartextComputer.step` (lines 35-59): combinational phase in
topological order, then the sequential register commit loop. -/
def stepC (c : Circuit) (v : Nat → Bool) : Except Err (Nat → Bool) :=
  combC c c.topo v >>= commitC c c.dffs

/-- `k` consecutive `step()` calls from a given state. -/
def stepN (c : Circuit) : Nat → (Nat → Bool) → Except Err (Nat → Bool)
  | 0, v => .ok v
  | k + 1, v => stepC c v >>= stepN c k

/-- `CleartextComputer.get_bits` (lines 61-62). -/
def get_bits (v : Nat → Bool) (bits : List Nat) : List Bool :=
  bits.map v

/-- The boolean-backend capability interface of the spec (§4.2), as realised
by `EncryptedComputer`'s use of the external `tfhe` module.
Modelled from the spec: the `tfhe` module (`bootsCONSTANT`, `bootsNOT`,
`bootsAND`, `bootsCOPY`, `decrypt`) is not part of this repository, so its
operations are abstracted as a value type `β` with the five capabilities
{Zero, Not, And, Copy, Decode}. -/
structure BooleanBackend (β : Type) : Type where
  Zero : β
  Not : β → β
  And : β → β → β
  Copy : β → β
  Decode : β → Bool

/-- Modelled from the spec: correctness of the homomorphic gate operations
of the external cryptographic engine — `Decode` resolves `Zero`, `Not`,
`And`, `Copy` to the corresponding boolean results. -/
def BooleanBackend.Correct {β : Type} (B : BooleanBackend β) : Prop :=
  B.Decode B.Zero = false ∧
  (∀ x, B.Decode (B.Not x) = !B.Decode x) ∧
  (∀ x y, B.Decode (B.And x y) = (B.Decode x && B.Decode y)) ∧
  (∀ x, B.Decode (B.Copy x) = B.Decode x)

/-- The Plaintext backend: `Bit = boolean`, native logic, `Decode` is the
identity (spec §4.2; this is what `CleartextComputer` computes with). -/
def plainBackend : BooleanBackend Bool :=
  { Zero := false, Not := fun b => !b, And := fun a b => a && b,
    Copy := fun b => b, Decode := fun b => b }

/-- `EncryptedComputer.reset` (lines 79-83): every node gets a fresh
ciphertext set to the constant 0 (`bootsCONSTANT(nb, 0)`). -/
def resetE {β : Type} (B : BooleanBackend β) : Nat → β := fun _ => B.Zero

/-- The combinational phase of `EncryptedComputer.step` (lines 86-105):
identical scheduling to the cleartext one; `bootsNOT` / `bootsAND` write
the gate result into the node's ciphertext (value replacement). -/
def combE {β : Type} (B : BooleanBackend β) (c : Circuit) :
    List Nat → (Nat → β) → Except Err (Nat → β)
  | [], v => .ok v
  | n :: rest, v =>
    match c.typ n with
    | none => combE B c rest v
    | some t =>
      if t = tDFF then combE B c rest v
      else if t = tNOT then
        match c.preds n with
        | [p] => combE B c rest (updF v n (B.Not (v p)))
        | _ => .error (.badPreds n)
      else if t = tAND then
        match c.preds n with
        | [p0, p1] => combE B c rest (updF v n (B.And (v p0) (v p1)))
        | _ => .error (.badPreds n)
      else .error (.unhandledEval n t)

/-- The register commit loop of `EncryptedComputer.step` (lines 106-112):
`bootsCOPY` of the input node's value into the register's ciphertext,
sequentially over `dffs`. -/
def commitE {β : Type} (B : BooleanBackend β) (c : Circuit) :
    List Nat → (Nat → β) → Except Err (Nat → β)
  | [], v => .ok v
  | n :: rest, v =>
    if n ∈ c.nodes then
      match c.input_node n with
      | none => .error (.keyError n)
      | some d =>
        if d ∈ c.nodes then commitE B c rest (updF v n (B.Copy (v d)))
        else .error (.keyError d)
    else .error (.keyError n)

/-- `EncryptedComputer.step` (lines 85-112). -/
def stepE {β : Type} (B : BooleanBackend β) (c : Circuit) (v : Nat → β) :
    Except Err (Nat → β) :=
  combE B c c.topo v >>= commitE B c c.dffs

/-- `k` consecutive encrypted `step()` calls. -/
def stepNE {β : Type} (B : BooleanBackend β) (c : Circuit) :
    Nat → (Nat → β) → Except Err (Nat → β)
  | 0, v => .ok v
  | k + 1, v => stepE B c v >>= stepNE B c k

/-- `EncryptedComputer.get_bits` (lines 114-116): decrypt each listed
node's value. -/
def get_bitsE {β : Type} (B : BooleanBackend β) (v : Nat → β)
    (bits : List Nat) : List Bool :=
  bits.map (fun b => B.Decode (v b))

/-- The networkx `DiGraph` as used by the loader: nodes in insertion order,
insertion-ordered predecessor lists (networkx adjacency dicts preserve
insertion order), and the `type` / `input_node` node attributes. -/
structure Graph : Type where
  nodes : List Nat
  preds : Nat → List Nat
  typ : Nat → Option String
  input_node : Nat → Option Nat

def Graph.empty : Graph :=
  { nodes := [], preds := fun _ => [], typ := fun _ => none,
    input_node := fun _ => none }

/-- Implicit node creation, as networkx performs on `add_edge`: a fresh
node is appended with an empty attribute dict and no predecessors. -/
def Graph.add_node (g : Graph) (u : Nat) : Graph :=
  if u ∈ g.nodes then g
  else { nodes := g.nodes ++ [u], preds := updF g.preds u [],
         typ := updF g.typ u none, input_node := updF g.input_node u none }

/-- `G.add_edge(u, v)`: both endpoints are created if absent, then `u` is
inserted into `v`'s predecessor dict (appended if not already present;
re-adding an existing edge changes nothing). -/
def Graph.add_edge (g : Graph) (u v : Nat) : Graph :=
  let g1 := (g.add_node u).add_node v
  let ps := if u ∈ g1.preds v then g1.preds v else g1.preds v ++ [u]
  { g1 with preds := updF g1.preds v ps }

/-- `G.nodes[u]['type'] = t` for a `u` already in the graph. -/
def Graph.setTyp (g : Graph) (u : Nat) (t : String) : Graph :=
  { g with typ := updF g.typ u (some t) }

/-- `G.nodes[u]['input_node'] = d` for a `u` already in the graph. -/
def Graph.setInput (g : Graph) (u : Nat) (d : Nat) : Graph :=
  { g with input_node := updF g.input_node u (some d) }

/-- The directed edge relation of the graph: `u → v` when `u` is a stored
predecessor of `v` and both are nodes. -/
def DirEdge (g : Graph) (u v : Nat) : Prop :=
  u ∈ g.nodes ∧ v ∈ g.nodes ∧ u ∈ g.preds v

/-- The same edges with direction ignored. -/
def UndEdge (g : Graph) (u v : Nat) : Prop :=
  u ∈ g.nodes ∧ v ∈ g.nodes ∧ (u ∈ g.preds v ∨ v ∈ g.preds u)

instance (g : Graph) (u v : Nat) : Decidable (DirEdge g u v) := by
  unfold DirEdge; infer_instance

instance (g : Graph) (u v : Nat) : Decidable (UndEdge g u v) := by
  unfold UndEdge; infer_instance

/-- Directed successor set of `a` (as a finite set), agreeing with
`DirEdge g a`. -/
def dirNbr (g : Graph) (a : Nat) : Finset Nat :=
  if a ∈ g.nodes then (g.nodes.filter (fun b => decide (a ∈ g.preds b))).toFinset
  else ∅

/-- Undirected neighbour set of `a`, agreeing with `UndEdge g a`. -/
def undNbr (g : Graph) (a : Nat) : Finset Nat :=
  if a ∈ g.nodes then
    (g.nodes.filter
      (fun b => decide (a ∈ g.preds b ∨ b ∈ g.preds a))).toFinset
  else ∅

/-- One round of breadth-first expansion of a node set. -/
def expandOnce (f : Nat → Finset Nat) (S : Finset Nat) : Finset Nat :=
  S ∪ S.biUnion f

/-- Saturated reachable set from `s` along `f`, with enough rounds to hit
the fixed point when every `f a` lies in `dom`. -/
def reachSet (dom : Finset Nat) (f : Nat → Finset Nat) (s : Nat) : Finset Nat :=
  (expandOnce f)^[(insert s dom).card] {s}

theorem subset_expandOnce (f : Nat → Finset Nat) (S : Finset Nat) :
    S ⊆ expandOnce f S :=
  Finset.subset_union_left

theorem expandOnce_mono (f : Nat → Finset Nat) {S T : Finset Nat}
    (h : S ⊆ T) : expandOnce f S ⊆ expandOnce f T :=
  Finset.union_subset_union h (Finset.biUnion_subset_biUnion_of_subset_left f h)

theorem expandOnce_subset_of_bound {f : Nat → Finset Nat} {B S : Finset Nat}
    (hf : ∀ a, f a ⊆ B) (hS : S ⊆ B) : expandOnce f S ⊆ B := by
  refine Finset.union_subset hS (Finset.biUnion_subset.mpr fun a _ => hf a)

theorem iterate_expandOnce_subset_of_bound {f : Nat → Finset Nat}
    {B S : Finset Nat} (hf : ∀ a, f a ⊆ B) (hS : S ⊆ B) :
    ∀ k, (expandOnce f)^[k] S ⊆ B := by
  intro k
  induction k generalizing S with
  | zero => exact hS
  | succ k ih =>
    rw [Function.iterate_succ_apply]
    exact ih (expandOnce_subset_of_bound hf hS)

theorem iterate_expandOnce_le (f : Nat → Finset Nat) (S : Finset Nat) (k : Nat) :
    (expandOnce f)^[k] S ⊆ (expandOnce f)^[k + 1] S := by
  rw [Function.iterate_succ_apply']
  exact subset_expandOnce f _

theorem iterate_expandOnce_fix {f : Nat → Finset Nat} {S : Finset Nat}
    (h : expandOnce f S = S) : ∀ k, (expandOnce f)^[k] S = S := by
  intro k
  induction k with
  | zero => rfl
  | succ k ih => rw [Function.iterate_succ_apply, h, ih]

/-- If no fixed point is reached in the first `k` rounds, the iterates grow
strictly, so their cardinality is at least `k + 1`. -/
theorem card_iterate_expandOnce_of_no_fix {f : Nat → Finset Nat} {s : Nat}
    (k : Nat)
    (h : ∀ j, j < k →
      expandOnce f ((expandOnce f)^[j] {s}) ≠ (expandOnce f)^[j] {s}) :
    k + 1 ≤ ((expandOnce f)^[k] {s}).card := by
  induction k with
  | zero => simp
  | succ k ih =>
    have hk : k + 1 ≤ ((expandOnce f)^[k] {s}).card :=
      ih fun j hj => h j (Nat.lt_succ_of_lt hj)
    have hne : expandOnce f ((expandOnce f)^[k] {s}) ≠ (expandOnce f)^[k] {s} :=
      h k (Nat.lt_succ_self k)
    have hlt : (expandOnce f)^[k] {s} ⊂ (expandOnce f)^[k + 1] {s} := by
      rw [Function.iterate_succ_apply']
      exact Finset.ssubset_iff_subset_ne.mpr
        ⟨subset_expandOnce f _, fun he => hne he.symm⟩
    exact Nat.succ_le_of_lt (Nat.lt_of_le_of_lt hk (Finset.card_lt_card hlt))

/-- The saturated set is a fixed point of expansion. -/
theorem expandOnce_reachSet {dom : Finset Nat} {f : Nat → Finset Nat}
    {s : Nat} (hf : ∀ a, f a ⊆ dom) :
    expandOnce f (reachSet dom f s) = reachSet dom f s := by
  set N := (insert s dom).card with hN
  by_cases hfix : ∃ j, j < N ∧
      expandOnce f ((expandOnce f)^[j] {s}) = (expandOnce f)^[j] {s}
  · obtain ⟨j, hj, hfixj⟩ := hfix
    have hstable : (expandOnce f)^[N] {s} = (expandOnce f)^[j] {s} := by
      have : (expandOnce f)^[N] {s} =
          (expandOnce f)^[N - j] ((expandOnce f)^[j] {s}) := by
        rw [← Function.iterate_add_apply]
        congr 1
        omega
      rw [this, iterate_expandOnce_fix hfixj]
    unfold reachSet
    rw [← hN, hstable, hfixj]
  · exfalso
    push_neg at hfix
    have hcard : N + 1 ≤ ((expandOnce f)^[N] {s}).card :=
      card_iterate_expandOnce_of_no_fix N hfix
    have hbound : (expandOnce f)^[N] {s} ⊆ insert s dom := by
      refine iterate_expandOnce_subset_of_bound
        (fun a => (hf a).trans (Finset.subset_insert s dom)) ?_ N
      simp
    have := Finset.card_le_card hbound
    omega

theorem mem_reachSet_self (dom : Finset Nat) (f : Nat → Finset Nat) (s : Nat) :
    s ∈ reachSet dom f s := by
  have h0 : ({s} : Finset Nat) ⊆ (expandOnce f)^[(insert s dom).card] {s} := by
    induction (insert s dom).card with
    | zero => exact fun x hx => hx
    | succ k ih => exact ih.trans (iterate_expandOnce_le f {s} k)
  exact h0 (Finset.mem_singleton_self s)

/-- Soundness: everything in an iterate is reachable. -/
theorem rtg_of_mem_iterate {f : Nat → Finset Nat} {s : Nat} :
    ∀ (k : Nat) (S : Finset Nat),
      (∀ x ∈ S, Relation.ReflTransGen (fun a b => b ∈ f a) s x) →
      ∀ t ∈ (expandOnce f)^[k] S,
        Relation.ReflTransGen (fun a b => b ∈ f a) s t := by
  intro k
  induction k with
  | zero => exact fun S hS t ht => hS t ht
  | succ k ih =>
    intro S hS t ht
    rw [Function.iterate_succ_apply] at ht
    refine ih (expandOnce f S) ?_ t ht
    intro x hx
    rcases Finset.mem_union.mp hx with hx | hx
    · exact hS x hx
    · obtain ⟨a, ha, hxa⟩ := Finset.mem_biUnion.mp hx
      exact (hS a ha).tail hxa

/-- Main reachability correctness: membership in the saturated set is
exactly reflexive-transitive reachability along `f`. -/
theorem mem_reachSet {dom : Finset Nat} {f : Nat → Finset Nat} {s : Nat}
    (hf : ∀ a, f a ⊆ dom) (t : Nat) :
    t ∈ reachSet dom f s ↔
      Relation.ReflTransGen (fun a b => b ∈ f a) s t := by
  constructor
  · intro ht
    refine rtg_of_mem_iterate _ {s} ?_ t ht
    intro x hx
    rw [Finset.mem_singleton] at hx
    subst hx
    exact Relation.ReflTransGen.refl
  · intro ht
    induction ht with
    | refl => exact mem_reachSet_self dom f s
    | tail hab hbc ih =>
      rw [← expandOnce_reachSet hf]
      exact Finset.mem_union.mpr
        (Or.inr (Finset.mem_biUnion.mpr ⟨_, ih, hbc⟩))


theorem mem_dirNbr (g : Graph) (a b : Nat) :
    b ∈ dirNbr g a ↔ DirEdge g a b := by
  unfold dirNbr DirEdge
  by_cases ha : a ∈ g.nodes
  · simp [ha, List.mem_filter]
    try tauto
  · simp [ha]

theorem mem_undNbr (g : Graph) (a b : Nat) :
    b ∈ undNbr g a ↔ UndEdge g a b := by
  unfold undNbr UndEdge
  by_cases ha : a ∈ g.nodes
  · simp [ha, List.mem_filter]
    try tauto
  · simp [ha]

theorem dirNbr_subset (g : Graph) (a : Nat) :
    dirNbr g a ⊆ g.nodes.toFinset := by
  intro b hb
  rw [mem_dirNbr] at hb
  exact List.mem_toFinset.mpr hb.2.1

theorem undNbr_subset (g : Graph) (a : Nat) :
    undNbr g a ⊆ g.nodes.toFinset := by
  intro b hb
  rw [mem_undNbr] at hb
  exact List.mem_toFinset.mpr hb.2.1

theorem rtg_dirNbr_iff (g : Graph) (s t : Nat) :
    Relation.ReflTransGen (fun a b => b ∈ dirNbr g a) s t ↔
      Relation.ReflTransGen (DirEdge g) s t := by
  constructor
  · exact Relation.ReflTransGen.mono fun a b h => (mem_dirNbr g a b).mp h
  · exact Relation.ReflTransGen.mono fun a b h => (mem_dirNbr g a b).mpr h

theorem rtg_undNbr_iff (g : Graph) (s t : Nat) :
    Relation.ReflTransGen (fun a b => b ∈ undNbr g a) s t ↔
      Relation.ReflTransGen (UndEdge g) s t := by
  constructor
  · exact Relation.ReflTransGen.mono fun a b h => (mem_undNbr g a b).mp h
  · exact Relation.ReflTransGen.mono fun a b h => (mem_undNbr g a b).mpr h

/-- `nx.is_weakly_connected(G)` (run.py line 169), modelling the networkx
semantics: false (the library raises) on an empty graph, otherwise a
breadth-first search ignoring edge direction must reach every node from
the first one. -/
def is_weakly_connected (g : Graph) : Bool :=
  match g.nodes with
  | [] => false
  | h :: _ =>
    g.nodes.all fun v => decide (v ∈ reachSet g.nodes.toFinset (undNbr g) h)

/-- Weak connectivity as the spec states it: the graph is non-empty and
every node reaches every other when edge direction is ignored. -/
def WeaklyConnected (g : Graph) : Prop :=
  g.nodes ≠ [] ∧
  ∀ u ∈ g.nodes, ∀ v ∈ g.nodes, Relation.ReflTransGen (UndEdge g) u v

/-- `dag.is_directed_acyclic_graph(G)` (run.py line 170): true exactly when
no directed edge `u → v` admits a directed path `v →* u` closing a cycle. -/
def is_directed_acyclic_graph (g : Graph) : Bool :=
  g.nodes.all fun v =>
    (g.preds v).all fun u =>
      decide (¬(u ∈ g.nodes ∧ u ∈ reachSet g.nodes.toFinset (dirNbr g) v))

/-- Acyclicity as the spec states it: there is no directed cycle, i.e. no
edge whose target reaches back to its source. -/
def Acyclic (g : Graph) : Prop :=
  ∀ u v, DirEdge g u v → ¬Relation.ReflTransGen (DirEdge g) v u

theorem symm_undEdge (g : Graph) : Symmetric (UndEdge g) := by
  intro a b h
  exact ⟨h.2.1, h.1, h.2.2.symm⟩

/-- The executable connectivity check decides the spec-level property. -/
theorem is_weakly_connected_iff (g : Graph) :
    is_weakly_connected g = true ↔ WeaklyConnected g := by
  unfold is_weakly_connected WeaklyConnected
  cases hn : g.nodes with
  | nil => simp
  | cons h rest =>
    have hsub : ∀ a, undNbr g a ⊆ (h :: rest).toFinset := by
      rw [← hn]
      exact undNbr_subset g
    rw [List.all_eq_true]
    constructor
    · intro hall
      refine ⟨by simp, ?_⟩
      intro u hu v hv
      have hru : Relation.ReflTransGen (UndEdge g) h u := by
        have hx := hall u hu
        rw [decide_eq_true_eq, mem_reachSet hsub, rtg_undNbr_iff] at hx
        exact hx
      have hrv : Relation.ReflTransGen (UndEdge g) h v := by
        have hx := hall v hv
        rw [decide_eq_true_eq, mem_reachSet hsub, rtg_undNbr_iff] at hx
        exact hx
      exact Relation.ReflTransGen.trans
        ((Relation.ReflTransGen.symmetric (symm_undEdge g)) hru) hrv
    · intro hc v hv
      rw [decide_eq_true_eq, mem_reachSet hsub, rtg_undNbr_iff]
      exact hc.2 h (List.mem_cons_self h rest) v hv

/-- The executable acyclicity check decides the spec-level property. -/
theorem is_directed_acyclic_graph_iff (g : Graph) :
    is_directed_acyclic_graph g = true ↔ Acyclic g := by
  unfold is_directed_acyclic_graph Acyclic
  simp only [List.all_eq_true, decide_eq_true_eq]
  constructor
  · intro hall u v he hpath
    refine hall v he.2.1 u he.2.2 ⟨he.1, ?_⟩
    rw [mem_reachSet (dirNbr_subset g), rtg_dirNbr_iff]
    exact hpath
  · intro hac v hv u hu hbad
    rw [mem_reachSet (dirNbr_subset g), rtg_dirNbr_iff] at hbad
    exact hac u v ⟨hbad.1, hv, hu⟩ hbad.2

/-- One Kahn round: the first remaining node all of whose stored
predecessors have already been emitted. -/
def pickSource (preds : Nat → List Nat) (remaining : List Nat) : Option Nat :=
  remaining.find? fun n => (preds n).all fun p => !(remaining.contains p)

/-- Kahn's algorithm with fuel, modelling `dag.topological_sort(G)`: emit
sources one at a time.  On a DAG this emits every node; the evaluators
only ever run it on graphs that passed the acyclicity assert. -/
def kahn (preds : Nat → List Nat) : Nat → List Nat → List Nat
  | 0, _ => []
  | fuel + 1, remaining =>
    match pickSource preds remaining with
    | none => []
    | some n => n :: kahn preds fuel (remaining.erase n)

/-- The fixed topological order of a graph, as `dag.topological_sort`
produces on the evaluators' unchanging graphs. -/
def topological_sort (g : Graph) : List Nat :=
  kahn g.preds g.nodes.length g.nodes

/-- A netlist cell: its `type` string and its named connections, each
binding a list of signal numbers (external interface, spec §6). -/
structure Cell : Type where
  ctype : String
  connections : List (String × List Nat)

/-- The pin names used by the loader. -/
def pinA : String := "A"

def pinB : String := "B"

def pinY : String := "Y"

def pinC : String := "C"

def pinD : String := "D"

def pinQ : String := "Q"

/-- `c['connections'][p]` lookup (a missing pin, like a wrong arity, stops
the run; we fold it into the arity check below). -/
def getConn (c : Cell) (p : String) : List Nat :=
  (c.connections.lookup p).getD []

/-- `assert_only_one` (run.py lines 143-145): a connection must bind
exactly one signal. -/
def assert_only_one (lst : List Nat) : Except Err Nat :=
  match lst with
  | [x] => .ok x
  | _ => .error .notOne

/-- Loader state: the graph under construction, the `dffs` commit set (a
Python set; we record membership in first-insertion order) and the
`unhandled_types` report set. -/
structure LoadState : Type where
  g : Graph
  dffs : List Nat
  unhandled : List String

def initState : LoadState := { g := Graph.empty, dffs := [], unhandled := [] }

/-- One iteration of the cell-loading loop (run.py lines 142-164):
`NOT` adds edge A→Y and tags Y; `AND` adds edges A→Y and B→Y in that
order and tags Y; `DFF` checks its clock, tags Q (a `KeyError` if Q is
not yet a graph node) and records `input_node` and the dff; any other
type is recorded as unhandled and contributes nothing. -/
def loadCell (clk : Nat) (st : LoadState) (c : Cell) : Except Err LoadState :=
  if c.ctype = tNOT then do
    let a ← assert_only_one (getConn c pinA)
    let y ← assert_only_one (getConn c pinY)
    .ok { st with g := (st.g.add_edge a y).setTyp y tNOT }
  else if c.ctype = tAND then do
    let a ← assert_only_one (getConn c pinA)
    let b ← assert_only_one (getConn c pinB)
    let y ← assert_only_one (getConn c pinY)
    .ok { st with g := ((st.g.add_edge a y).add_edge b y).setTyp y tAND }
  else if c.ctype = tDFF then do
    let cc ← assert_only_one (getConn c pinC)
    let d ← assert_only_one (getConn c pinD)
    let q ← assert_only_one (getConn c pinQ)
    if cc = clk then
      if q ∈ st.g.nodes then
        .ok { g := (st.g.setTyp q tDFF).setInput q d,
              dffs := if q ∈ st.dffs then st.dffs else st.dffs ++ [q],
              unhandled := st.unhandled }
      else .error (.keyError q)
    else .error .clockMismatch
  else
    .ok { st with unhandled :=
      if c.ctype ∈ st.unhandled then st.unhandled
      else st.unhandled ++ [c.ctype] }

/-- The whole cell loop, in the (insertion-ordered) iteration order of the
`cells` dict. -/
def loadCells (clk : Nat) : LoadState → List Cell → Except Err LoadState
  | st, [] => .ok st
  | st, c :: rest => loadCell clk st c >>= fun st1 => loadCells clk st1 rest

/-- The circuit handed to the two computers: graph attributes, the
captured topological order, and the dff commit sequence. -/
def toCircuit (st : LoadState) : Circuit :=
  { typ := st.g.typ, preds := st.g.preds, input_node := st.g.input_node,
    nodes := st.g.nodes, topo := topological_sort st.g, dffs := st.dffs }

/-- The two structural asserts (run.py lines 169-170):
`assert nx.is_weakly_connected(G)` then
`assert dag.is_directed_acyclic_graph(G)`. -/
def structuralChecks (st : LoadState) : Except Err Circuit :=
  if is_weakly_connected st.g then
    if is_directed_acyclic_graph st.g then .ok (toCircuit st)
    else .error .notAcyclic
  else .error .notConnected

/-- Loading a whole netlist: the cell loop followed by the structural
asserts; on success the circuit both computers are built over. -/
def loadNetlist (clk : Nat) (cells : List Cell) : Except Err Circuit :=
  loadCells clk initState cells >>= structuralChecks

/-- Load and run one plaintext cycle from reset, the observable behaviour
the error-handling claims are about. -/
def runNetlist (clk : Nat) (cells : List Cell) : Except Err (Nat → Bool) :=
  loadNetlist clk cells >>= fun c => stepC c resetC

/-- Decoding a whole encrypted state node-wise. -/
def decF {β : Type} (B : BooleanBackend β) (ev : Nat → β) : Nat → Bool :=
  fun m => B.Decode (ev m)

theorem decF_updF {β : Type} (B : BooleanBackend β) (ev : Nat → β) (n : Nat)
    (x : β) : decF B (updF ev n x) = updF (decF B ev) n (B.Decode x) := by
  funext m
  unfold decF updF
  by_cases h : m = n <;> simp [h]

theorem decF_resetE {β : Type} (B : BooleanBackend β) (hB : B.Correct) :
    decF B (resetE B) = resetC := by
  funext m
  exact hB.1

/-- Simulation of the combinational phases: the cleartext fold on the
decoded state computes exactly the decoding of the encrypted fold (and
they fail with the same error in the same place). -/
theorem combC_map_combE {β : Type} (B : BooleanBackend β) (hB : B.Correct)
    (c : Circuit) :
    ∀ (l : List Nat) (ev : Nat → β),
      combC c l (decF B ev) = (combE B c l ev).map (decF B) := by
  intro l
  induction l with
  | nil => intro ev; rfl
  | cons n rest ih =>
    intro ev
    simp only [combC, combE]
    cases c.typ n with
    | none => exact ih ev
    | some t =>
      by_cases hdff : t = tDFF
      · simp only [hdff, if_pos rfl]
        exact ih ev
      · by_cases hnot : t = tNOT
        · simp only [hnot, tNOT, tDFF]
          simp only [if_neg (by decide : ¬("NOT" : String) = "DFF"), if_pos rfl]
          cases hp : c.preds n with
          | nil => rfl
          | cons p ps =>
            cases ps with
            | nil =>
              have hg := ih (updF ev n (B.Not (ev p)))
              rw [decF_updF, hB.2.1] at hg
              exact hg
            | cons q qs => rfl
        · by_cases hand : t = tAND
          · simp only [hand, tAND, tDFF, tNOT]
            simp only [if_neg (by decide : ¬("AND" : String) = "DFF"),
              if_neg (by decide : ¬("AND" : String) = "NOT"), if_pos rfl]
            cases hp : c.preds n with
            | nil => rfl
            | cons p ps =>
              cases ps with
              | nil => rfl
              | cons q qs =>
                cases qs with
                | nil =>
                  have hg := ih (updF ev n (B.And (ev p) (ev q)))
                  rw [decF_updF, hB.2.2.1] at hg
                  exact hg
                | cons r rs => rfl
          · simp only [if_neg hdff, if_neg hnot, if_neg hand]
            rfl

/-- Simulation of the register commit loops. -/
theorem commitC_map_commitE {β : Type} (B : BooleanBackend β) (hB : B.Correct)
    (c : Circuit) :
    ∀ (l : List Nat) (ev : Nat → β),
      commitC c l (decF B ev) = (commitE B c l ev).map (decF B) := by
  intro l
  induction l with
  | nil => intro ev; rfl
  | cons n rest ih =>
    intro ev
    simp only [commitC, commitE]
    by_cases hn : n ∈ c.nodes
    · simp only [if_pos hn]
      cases c.input_node n with
      | none => rfl
      | some d =>
        by_cases hd : d ∈ c.nodes
        · simp only [if_pos hd]
          have hg := ih (updF ev n (B.Copy (ev d)))
          rw [decF_updF, hB.2.2.2] at hg
          exact hg
        · simp only [if_neg hd]
          rfl
    · simp only [if_neg hn]
      rfl

/-- Simulation of whole cycles. -/
theorem stepC_map_stepE {β : Type} (B : BooleanBackend β) (hB : B.Correct)
    (c : Circuit) (ev : Nat → β) :
    stepC c (decF B ev) = (stepE B c ev).map (decF B) := by
  unfold stepC stepE
  rw [combC_map_combE B hB]
  cases combE B c c.topo ev with
  | error e => rfl
  | ok w =>
    simp only [Except.map, Except.bind]
    exact commitC_map_commitE B hB c c.dffs w

theorem stepN_map_stepNE {β : Type} (B : BooleanBackend β) (hB : B.Correct)
    (c : Circuit) :
    ∀ (k : Nat) (ev : Nat → β),
      stepN c k (decF B ev) = (stepNE B c k ev).map (decF B) := by
  intro k
  induction k with
  | zero => intro ev; rfl
  | succ k ih =>
    intro ev
    simp only [stepN, stepNE]
    rw [stepC_map_stepE B hB]
    cases stepE B c ev with
    | error e => rfl
    | ok w =>
      simp only [Except.map, Except.bind]
      exact ih w

theorem bits_to_int_nil : bits_to_int [] = 0 := rfl

theorem bits_to_int_cons (b : Bool) (bs : List Bool) :
    bits_to_int (b :: bs) = (if b then 1 else 0) + 2 * bits_to_int bs := by
  unfold bits_to_int
  rw [List.reverse_cons, List.foldl_append]
  cases b <;> simp <;> ring


theorem exc_bind_ok {α γ : Type} (a : α) (f : α → Except Err γ) :
    (Except.ok a >>= f) = f a := rfl

theorem exc_bind_error {α γ : Type} (e : Err) (f : α → Except Err γ) :
    ((Except.error e : Except Err α) >>= f) = .error e := rfl

/-- Frame property of the combinational fold: a node whose `type`
attribute is absent is never written. -/
theorem combC_frame (c : Circuit) (n : Nat) (hn : c.typ n = none) :
    ∀ (l : List Nat) (v v' : Nat → Bool),
      combC c l v = .ok v' → v' n = v n := by
  intro l
  induction l with
  | nil =>
    intro v v' h
    cases h
    rfl
  | cons m rest ih =>
    intro v v' h
    cases htm : c.typ m with
    | none =>
      simp only [combC, htm] at h
      exact ih v v' h
    | some t =>
      simp only [combC, htm] at h
      have hmn : m ≠ n := fun he => by rw [he, hn] at htm; cases htm
      have hupd : ∀ (x : Bool), combC c rest (updF v m x) = .ok v' → v' n = v n := by
        intro x hh
        rw [ih _ _ hh]
        unfold updF
        rw [if_neg (fun he : n = m => hmn he.symm)]
      by_cases hdff : t = tDFF
      · rw [if_pos hdff] at h
        exact ih v v' h
      · rw [if_neg hdff] at h
        by_cases hnot : t = tNOT
        · rw [if_pos hnot] at h
          cases hp : c.preds m with
          | nil => rw [hp] at h; cases h
          | cons p ps =>
            cases ps with
            | nil => rw [hp] at h; exact hupd _ h
            | cons q qs => rw [hp] at h; cases h
        · rw [if_neg hnot] at h
          by_cases hand : t = tAND
          · rw [if_pos hand] at h
            cases hp : c.preds m with
            | nil => rw [hp] at h; cases h
            | cons p ps =>
              cases ps with
              | nil => rw [hp] at h; cases h
              | cons q qs =>
                cases qs with
                | nil => rw [hp] at h; exact hupd _ h
                | cons r rs => rw [hp] at h; cases h
          · rw [if_neg hand] at h
            cases h

/-- Frame property of the commit loop: a node not in the dff list is never
written. -/
theorem commitC_frame (c : Circuit) (n : Nat) :
    ∀ (l : List Nat) (v v' : Nat → Bool), n ∉ l →
      commitC c l v = .ok v' → v' n = v n := by
  intro l
  induction l with
  | nil =>
    intro v v' _ h
    cases h
    rfl
  | cons m rest ih =>
    intro v v' hnl h
    have hmn : n ≠ m := fun he => hnl (he ▸ List.mem_cons_self m rest)
    have hnr : n ∉ rest := fun he => hnl (List.mem_cons_of_mem m he)
    by_cases hm : m ∈ c.nodes
    · cases hd : c.input_node m with
      | none =>
        simp only [commitC, hd, if_pos hm] at h
        cases h
      | some d =>
        simp only [commitC, hd, if_pos hm] at h
        by_cases hdn : d ∈ c.nodes
        · rw [if_pos hdn] at h
          rw [ih _ _ hnr h]
          unfold updF
          rw [if_neg hmn]
        · rw [if_neg hdn] at h
          cases h
    · simp only [commitC, if_neg hm] at h
      cases h

theorem stepC_frame (c : Circuit) (n : Nat) (hn : c.typ n = none)
    (hnd : n ∉ c.dffs) (v v' : Nat → Bool) (h : stepC c v = .ok v') :
    v' n = v n := by
  unfold stepC at h
  cases hc : combC c c.topo v with
  | error e =>
    rw [hc, exc_bind_error] at h
    cases h
  | ok w =>
    rw [hc, exc_bind_ok] at h
    rw [commitC_frame c n c.dffs w v' hnd h]
    exact combC_frame c n hn c.topo v w hc

theorem stepN_frame (c : Circuit) (n : Nat) (hn : c.typ n = none)
    (hnd : n ∉ c.dffs) :
    ∀ (k : Nat) (v v' : Nat → Bool), stepN c k v = .ok v' → v' n = v n := by
  intro k
  induction k with
  | zero =>
    intro v v' h
    cases h
    rfl
  | succ k ih =>
    intro v v' h
    simp only [stepN] at h
    cases hc : stepC c v with
    | error e =>
      rw [hc, exc_bind_error] at h
      cases h
    | ok w =>
      rw [hc, exc_bind_ok] at h
      rw [ih w v' h]
      exact stepC_frame c n hn hnd v w hc

theorem mem_add_node (g : Graph) (u x : Nat) :
    x ∈ (g.add_node u).nodes ↔ x ∈ g.nodes ∨ x = u := by
  unfold Graph.add_node
  by_cases h : u ∈ g.nodes
  · rw [if_pos h]
    constructor
    · exact Or.inl
    · intro hx
      cases hx with
      | inl hx => exact hx
      | inr hx => exact hx ▸ h
  · rw [if_neg h]
    simp

theorem add_node_preds (g : Graph) (u m : Nat) (hm : m ≠ u) :
    (g.add_node u).preds m = g.preds m := by
  unfold Graph.add_node
  by_cases h : u ∈ g.nodes
  · rw [if_pos h]
  · rw [if_neg h]
    unfold updF
    simp [hm]

theorem add_node_preds_fresh (g : Graph) (u : Nat) (hu : u ∉ g.nodes) :
    (g.add_node u).preds u = [] := by
  unfold Graph.add_node
  rw [if_neg hu]
  unfold updF
  simp

theorem add_node_typ (g : Graph) (u m : Nat) (hm : m ≠ u) :
    (g.add_node u).typ m = g.typ m := by
  unfold Graph.add_node
  by_cases h : u ∈ g.nodes
  · rw [if_pos h]
  · rw [if_neg h]
    unfold updF
    simp [hm]


theorem add_node_of_mem (g : Graph) (u : Nat) (hu : u ∈ g.nodes) :
    g.add_node u = g := by
  unfold Graph.add_node
  rw [if_pos hu]

theorem add_edge_nodes (g : Graph) (u v : Nat) :
    (g.add_edge u v).nodes = ((g.add_node u).add_node v).nodes := by
  simp [Graph.add_edge]

theorem add_edge_typ_eq (g : Graph) (u v : Nat) :
    (g.add_edge u v).typ = ((g.add_node u).add_node v).typ := by
  simp [Graph.add_edge]

theorem add_edge_input_eq (g : Graph) (u v : Nat) :
    (g.add_edge u v).input_node = ((g.add_node u).add_node v).input_node := by
  simp [Graph.add_edge]

theorem add_edge_preds_self (g : Graph) (u v : Nat) :
    (g.add_edge u v).preds v =
      if u ∈ ((g.add_node u).add_node v).preds v
      then ((g.add_node u).add_node v).preds v
      else ((g.add_node u).add_node v).preds v ++ [u] := by
  simp [Graph.add_edge, updF]

theorem add_edge_preds_other (g : Graph) (u v m : Nat) (hm : m ≠ v) :
    (g.add_edge u v).preds m = ((g.add_node u).add_node v).preds m := by
  simp [Graph.add_edge, updF, hm]

/-- Adding the first operand edge of a gate whose output node is fresh:
the output's predecessor list becomes exactly `[a]`. -/
theorem add_edge_preds_fresh (g : Graph) (a y : Nat) (hy : y ∉ g.nodes)
    (hya : y ≠ a) : (g.add_edge a y).preds y = [a] := by
  have h1 : y ∉ (g.add_node a).nodes := by
    rw [mem_add_node]
    intro hx
    cases hx with
    | inl hx => exact hy hx
    | inr hx => exact hya hx
  have h2 : ((g.add_node a).add_node y).preds y = [] :=
    add_node_preds_fresh (g.add_node a) y h1
  rw [add_edge_preds_self, h2]
  simp

/-- The predecessor list of an existing node is preserved by `add_node`
and extended in insertion order by a second, distinct edge. -/
theorem add_node_twice_preds (g : Graph) (b y : Nat) (hyg : y ∈ g.nodes) :
    ((g.add_node b).add_node y).preds y = g.preds y := by
  have h2 : y ∈ (g.add_node b).nodes := (mem_add_node g b y).mpr (Or.inl hyg)
  rw [add_node_of_mem _ _ h2]
  by_cases hyb : y = b
  · subst hyb
    rw [add_node_of_mem _ _ hyg]
  · exact add_node_preds g b y hyb

/-- Adding a second, distinct operand edge to the same output: the new
predecessor is appended, preserving construction order. -/
theorem add_edge_preds_append (g : Graph) (b y : Nat) (hyg : y ∈ g.nodes)
    (hb : b ∉ g.preds y) : (g.add_edge b y).preds y = g.preds y ++ [b] := by
  rw [add_edge_preds_self, add_node_twice_preds g b y hyg, if_neg hb]

/-- Re-adding an existing edge changes nothing (a `DiGraph` stores at most
one edge per ordered pair). -/
theorem add_edge_preds_dup (g : Graph) (b y : Nat) (hyg : y ∈ g.nodes)
    (hb : b ∈ g.preds y) : (g.add_edge b y).preds y = g.preds y := by
  rw [add_edge_preds_self, add_node_twice_preds g b y hyg, if_pos hb]

theorem mem_add_edge (g : Graph) (u v x : Nat) :
    x ∈ (g.add_edge u v).nodes ↔ x ∈ g.nodes ∨ x = u ∨ x = v := by
  rw [add_edge_nodes, mem_add_node, mem_add_node]
  tauto

theorem add_edge_typ (g : Graph) (u v m : Nat) (hmu : m ≠ u) (hmv : m ≠ v) :
    (g.add_edge u v).typ m = g.typ m := by
  rw [add_edge_typ_eq, add_node_typ _ _ _ hmv, add_node_typ _ _ _ hmu]

theorem loadCells_append (clk : Nat) (st : LoadState) (xs ys : List Cell) :
    loadCells clk st (xs ++ ys) =
      loadCells clk st xs >>= fun st1 => loadCells clk st1 ys := by
  induction xs generalizing st with
  | nil => rfl
  | cons x xs ih =>
    show loadCells clk st (x :: (xs ++ ys)) = _
    simp only [loadCells]
    cases loadCell clk st x with
    | error e => rw [exc_bind_error, exc_bind_error, exc_bind_error]
    | ok st1 =>
      rw [exc_bind_ok, exc_bind_ok]
      exact ih st1

/-- Loading an `AND` cell whose three pins each bind one signal: the two
operand edges are added in the order A then B and the output is tagged. -/
theorem loadCell_and (clk : Nat) (st : LoadState) (cell : Cell) (a b y : Nat)
    (hc : cell.ctype = tAND) (ha : getConn cell pinA = [a])
    (hb : getConn cell pinB = [b]) (hy : getConn cell pinY = [y]) :
    loadCell clk st cell =
      .ok { st with g := ((st.g.add_edge a y).add_edge b y).setTyp y tAND } := by
  unfold loadCell
  rw [hc, if_neg (by decide : ¬tAND = tNOT), if_pos rfl, ha, hb, hy]
  rfl

/-- Loading a `DFF` cell never touches the edge set or the node set: the
register's data-input dependency is recorded only in the `input_node`
attribute, not as a graph edge. -/
theorem loadCell_dff_preserves (clk : Nat) (st : LoadState) (cell : Cell)
    (st1 : LoadState) (hc : cell.ctype = tDFF)
    (h : loadCell clk st cell = .ok st1) :
    st1.g.preds = st.g.preds ∧ st1.g.nodes = st.g.nodes := by
  unfold loadCell at h
  rw [hc, if_neg (by decide : ¬tDFF = tNOT),
    if_neg (by decide : ¬tDFF = tAND), if_pos rfl] at h
  cases hcc : assert_only_one (getConn cell pinC) with
  | error e =>
    rw [hcc, exc_bind_error] at h
    cases h
  | ok cc =>
    rw [hcc, exc_bind_ok] at h
    cases hdd : assert_only_one (getConn cell pinD) with
    | error e =>
      rw [hdd, exc_bind_error] at h
      cases h
    | ok d =>
      rw [hdd, exc_bind_ok] at h
      cases hqq : assert_only_one (getConn cell pinQ) with
      | error e =>
        rw [hqq, exc_bind_error] at h
        cases h
      | ok q =>
        rw [hqq, exc_bind_ok] at h
        by_cases hclk : cc = clk
        · rw [if_pos hclk] at h
          by_cases hq : q ∈ st.g.nodes
          · rw [if_pos hq] at h
            cases h
            exact ⟨rfl, rfl⟩
          · rw [if_neg hq] at h
            cases h
        · rw [if_neg hclk] at h
          cases h

/-- Loading a cell of any unsupported type only records the type string in
the `unhandled_types` report set; the graph and dff set are untouched and
loading continues. -/
theorem loadCell_unsupported (clk : Nat) (st : LoadState) (cell : Cell)
    (h1 : cell.ctype ≠ tNOT) (h2 : cell.ctype ≠ tAND) (h3 : cell.ctype ≠ tDFF) :
    loadCell clk st cell =
      .ok { st with unhandled :=
        if cell.ctype ∈ st.unhandled then st.unhandled
        else st.unhandled ++ [cell.ctype] } := by
  unfold loadCell
  rw [if_neg h1, if_neg h2, if_neg h3]

/-- A `NOT` cell whose A pin binds two signals trips `assert_only_one`. -/
theorem loadCell_not_double (clk : Nat) (st : LoadState) (cell : Cell)
    (s t : Nat) (hc : cell.ctype = tNOT) (ha : getConn cell pinA = [s, t]) :
    loadCell clk st cell = .error .notOne := by
  unfold loadCell
  rw [hc, if_pos rfl, ha]
  rfl

/-- Extract the success value of a computation known to succeed. -/
def okOr {α : Type} (d : α) : Except Err α → α
  | .ok x => x
  | .error _ => d

/-- A primary input 1 driving a NOT gate on node 2: the smallest circuit
the checks accept. -/
def exCircuit : Circuit :=
  { typ := fun m => if m = 2 then some tNOT else none,
    preds := fun m => if m = 2 then [1] else [],
    input_node := fun _ => none,
    nodes := [1, 2], topo := [1, 2], dffs := [] }

/-- NOT gate 1 → 2. -/
def exNotCell : Cell := ⟨tNOT, [(pinA, [1]), (pinY, [2])]⟩

/-- NOT gate 3 → 4. -/
def exNot34Cell : Cell := ⟨tNOT, [(pinA, [3]), (pinY, [4])]⟩

/-- Register with data input 2 and output 3, clocked at signal 0. -/
def exDff23Cell : Cell := ⟨tDFF, [(pinC, [0]), (pinD, [2]), (pinQ, [3])]⟩

/-- Register with data input 1 and output 2, clocked at signal 0. -/
def exDff12Cell : Cell := ⟨tDFF, [(pinC, [0]), (pinD, [1]), (pinQ, [2])]⟩

/-- An unsupported XOR cell whose output signal is 5. -/
def exXorCell : Cell := ⟨"XOR", [(pinA, [1]), (pinB, [2]), (pinY, [5])]⟩

/-- A NOT gate consuming the unsupported cell's output signal 5. -/
def exConsumerCell : Cell := ⟨tNOT, [(pinA, [5]), (pinY, [6])]⟩

/-- An unsupported XOR cell whose output signal is 7. -/
def exXor7Cell : Cell := ⟨"XOR", [(pinY, [7])]⟩

/-- Register whose data input 7 is the unsupported cell's output. -/
def exDff73Cell : Cell := ⟨tDFF, [(pinC, [0]), (pinD, [7]), (pinQ, [3])]⟩

/-- AND gate with ordered operands 1, 2 and output 3. -/
def exAndCell : Cell := ⟨tAND, [(pinA, [1]), (pinB, [2]), (pinY, [3])]⟩

/-- AND gate binding the SAME signal 1 to both A and B, output 2. -/
def exAndSameCell : Cell := ⟨tAND, [(pinA, [1]), (pinB, [1]), (pinY, [2])]⟩

/-- A NOT cell whose A pin wrongly binds two signals. -/
def exBadNotCell : Cell := ⟨tNOT, [(pinA, [1, 4]), (pinY, [2])]⟩

/-- Primary input 1, NOT gate on node 2, register 3 fed by node 2 and
register 4 fed by register 3, committed in the order [3, 4] (a Python set
of the small ints 3 and 4 iterates in exactly this order). -/
def chainCircuit : Circuit :=
  { typ := fun m =>
      if m = 2 then some tNOT
      else if m = 3 then some tDFF
      else if m = 4 then some tDFF
      else none,
    preds := fun m => if m = 2 then [1] else [],
    input_node := fun m =>
      if m = 3 then some 2 else if m = 4 then some 3 else none,
    nodes := [1, 2, 3, 4], topo := [1, 2, 3, 4], dffs := [3, 4] }

theorem plainBackend_correct : plainBackend.Correct :=
  ⟨rfl, fun _ => rfl, fun _ _ => rfl, fun _ => rfl⟩

/-- C7: `bits_to_int` returns the sum of `2^i` over the true positions of
the list, the first element being the least-significant bit; the result
(a natural number, hence non-negative) is below `2^length`, and the empty
list maps to 0. -/
theorem bits_to_int_spec (bs : List Bool) :
    bits_to_int bs =
      (∑ i ∈ Finset.range bs.length, if bs.getD i false then 2 ^ i else 0) ∧
    bits_to_int bs < 2 ^ bs.length ∧ bits_to_int [] = 0 := by
  induction bs with
  | nil => exact ⟨by simp [bits_to_int], by simp [bits_to_int], rfl⟩
  | cons b bs ih =>
    refine ⟨?_, ?_, rfl⟩
    · rw [bits_to_int_cons, ih.1, List.length_cons, Finset.sum_range_succ']
      simp only [List.getD_cons_succ, List.getD_cons_zero, pow_zero]
      have hs : (∑ i ∈ Finset.range bs.length,
            if bs.getD i false then 2 ^ (i + 1) else 0) =
          2 * ∑ i ∈ Finset.range bs.length,
            if bs.getD i false then 2 ^ i else 0 := by
        rw [Finset.mul_sum]
        apply Finset.sum_congr rfl
        intro i _
        by_cases hb : bs.getD i false = true
        · rw [if_pos hb, if_pos hb, pow_succ]
          ring
        · rw [if_neg hb, if_neg hb, mul_zero]
      rw [hs]
      omega
    · rw [bits_to_int_cons, List.length_cons, pow_succ]
      have hlt := ih.2.1
      cases b <;> simp <;> omega

/-- C1: backend equivalence — over any circuit, any number of cycles
k ≥ 1 and any list of output signals, decoding the Homomorphic
evaluator's node values after each cycle yields exactly the bit vector the
Plaintext evaluator holds after the same cycle, both run in lock-step
from the reset state over the same captured scheduling (and when a run
fails, both fail with the identical error).  The homomorphic gate
operations are any operations satisfying the spec's backend-correctness
contract. -/
theorem backend_equivalence {β : Type} (B : BooleanBackend β)
    (hB : B.Correct) (c : Circuit) (k : Nat) (hk : 1 ≤ k) (bits : List Nat) :
    (stepNE B c k (resetE B)).map (fun ev => get_bitsE B ev bits) =
    (stepN c k resetC).map (fun v => get_bits v bits) := by
  have h1 : stepN c k resetC = (stepNE B c k (resetE B)).map (decF B) := by
    rw [← decF_resetE B hB]
    exact stepN_map_stepNE B hB c k (resetE B)
  rw [h1]
  cases stepNE B c k (resetE B) with
  | error e => rfl
  | ok ev => rfl

theorem backend_equivalence_witness :
    plainBackend.Correct ∧
    (stepNE plainBackend exCircuit 1 (resetE plainBackend)).map
        (fun ev => get_bitsE plainBackend ev [2]) =
      (stepN exCircuit 1 resetC).map (fun v => get_bits v [2]) :=
  ⟨plainBackend_correct,
   backend_equivalence plainBackend plainBackend_correct exCircuit 1
     (by decide) [2]⟩

/-- C8: determinism — two Plaintext evaluator instances over copies of the
same graph (equal circuits), reset and stepped the same number of cycles,
produce identical output bit sequences for every output-signal list. -/
theorem plaintext_determinism (c1 c2 : Circuit) (h : c1 = c2) (k : Nat)
    (bits : List Nat) :
    (stepN c1 k resetC).map (fun v => get_bits v bits) =
    (stepN c2 k resetC).map (fun v => get_bits v bits) := by
  rw [h]

theorem plaintext_determinism_witness :
    (stepN exCircuit 2 resetC).map (fun v => get_bits v [2]) =
    (stepN exCircuit 2 resetC).map (fun v => get_bits v [2]) :=
  plaintext_determinism exCircuit exCircuit rfl 2 [2]

/-- C10: frame effect — `step()` never writes a node carrying no `type`
attribute: a single step leaves such a node's value unchanged from any
state, and along any successful run from reset it stays `false` (under
the loader invariant that every member of the dff commit set carries the
`DFF` tag). -/
theorem untyped_nodes_frame (c : Circuit) (n : Nat)
    (hdffs : ∀ d ∈ c.dffs, c.typ d = some tDFF) (hn : c.typ n = none) :
    (∀ v v', stepC c v = .ok v' → v' n = v n) ∧
    (∀ k v', stepN c k resetC = .ok v' → v' n = false) := by
  have hnd : n ∉ c.dffs := fun hmem => by
    rw [hdffs n hmem] at hn
    cases hn
  exact ⟨fun v v' h => stepC_frame c n hn hnd v v' h,
    fun k v' h => stepN_frame c n hn hnd k resetC v' h⟩

theorem untyped_nodes_frame_witness : updF resetC 2 true 1 = false :=
  (untyped_nodes_frame exCircuit 1
      (fun d hd => absurd hd (List.not_mem_nil d)) rfl).2
    1 (updF resetC 2 true) rfl

/-- C2 fails on the code: in `chainCircuit`, register 4's data input is
register 3's output, and the sequential commit loop runs 3 before 4.
After the first `step()` from reset, the claim predicts register 4 holds
register 3's cycle-1 combinational value, which is `false` (second
conjunct: node 3 still holds its reset value after the combinational
phase); but the commit loop copies register 3's freshly committed value,
so register 4 reads `true` — the NOT result ripples through both
registers in one cycle. -/
theorem register_chain_same_cycle_ripple :
    (stepC chainCircuit resetC).map (fun v => (v 3, v 4)) = .ok (true, true) ∧
    (combC chainCircuit chainCircuit.topo resetC).map (fun v => v 3) =
      .ok false :=
  ⟨rfl, rfl⟩


theorem add_node_preds_mem (g : Graph) (u y : Nat) (hy : y ∈ g.nodes) :
    (g.add_node u).preds y = g.preds y := by
  by_cases hu : u ∈ g.nodes
  · rw [add_node_of_mem g u hu]
  · exact add_node_preds g u y (fun he => hu (he ▸ hy))

theorem add_node_typ_mem (g : Graph) (u y : Nat) (hy : y ∈ g.nodes) :
    (g.add_node u).typ y = g.typ y := by
  by_cases hu : u ∈ g.nodes
  · rw [add_node_of_mem g u hu]
  · exact add_node_typ g u y (fun he => hu (he ▸ hy))

/-- The first operand edge of a gate whose output has no stored
predecessors yet (the single-driver situation: the output node may well
already exist, e.g. as an operand of an earlier-listed cell): its
predecessor list becomes exactly `[a]`. -/
theorem add_edge_preds_start (g : Graph) (a y : Nat) (hya : y ≠ a)
    (hp : g.preds y = []) : (g.add_edge a y).preds y = [a] := by
  have h0 : ((g.add_node a).add_node y).preds y = [] := by
    by_cases hy : y ∈ (g.add_node a).nodes
    · rw [add_node_of_mem _ _ hy, add_node_preds g a y hya, hp]
    · exact add_node_preds_fresh _ y hy
  rw [add_edge_preds_self, h0]
  simp

theorem setTyp_typ_ne (g : Graph) (q : Nat) (t : String) (y : Nat)
    (h : y ≠ q) : (g.setTyp q t).typ y = g.typ y := by
  simp [Graph.setTyp, updF, h]

/-- An edge into a different node disturbs neither the predecessor list
nor the type attribute of an existing node. -/
theorem add_edge_preserves_at (g : Graph) (u v y : Nat) (hy : y ∈ g.nodes)
    (hyv : y ≠ v) :
    (g.add_edge u v).preds y = g.preds y ∧
    (g.add_edge u v).typ y = g.typ y ∧ y ∈ (g.add_edge u v).nodes := by
  have hy1 : y ∈ (g.add_node u).nodes := (mem_add_node g u y).mpr (Or.inl hy)
  refine ⟨?_, ?_, (mem_add_edge g u v y).mpr (Or.inl hy)⟩
  · rw [add_edge_preds_other g u v y hyv,
      add_node_preds_mem (g.add_node u) v y hy1, add_node_preds_mem g u y hy]
  · rw [add_edge_typ_eq,
      add_node_typ_mem (g.add_node u) v y hy1, add_node_typ_mem g u y hy]

theorem assert_only_one_ok {l : List Nat} {x : Nat}
    (h : assert_only_one l = .ok x) : l = [x] := by
  cases l with
  | nil => simp [assert_only_one] at h
  | cons z zs =>
    cases zs with
    | nil =>
      simp [assert_only_one] at h
      rw [h]
    | cons w ws => simp [assert_only_one] at h

/-- Inversion of a successful `NOT` cell load. -/
theorem loadCell_not_inv (clk : Nat) (st st1 : LoadState) (cell : Cell)
    (hc : cell.ctype = tNOT) (h : loadCell clk st cell = .ok st1) :
    ∃ a y, getConn cell pinA = [a] ∧ getConn cell pinY = [y] ∧
      st1 = { st with g := (st.g.add_edge a y).setTyp y tNOT } := by
  unfold loadCell at h
  rw [hc, if_pos rfl] at h
  cases ha : assert_only_one (getConn cell pinA) with
  | error e =>
    rw [ha, exc_bind_error] at h
    cases h
  | ok a =>
    rw [ha, exc_bind_ok] at h
    cases hy : assert_only_one (getConn cell pinY) with
    | error e =>
      rw [hy, exc_bind_error] at h
      cases h
    | ok y =>
      rw [hy, exc_bind_ok] at h
      injection h with h1
      exact ⟨a, y, assert_only_one_ok ha, assert_only_one_ok hy, h1.symm⟩

/-- Inversion of a successful `AND` cell load. -/
theorem loadCell_and_inv (clk : Nat) (st st1 : LoadState) (cell : Cell)
    (hc : cell.ctype = tAND) (h : loadCell clk st cell = .ok st1) :
    ∃ a b y, getConn cell pinA = [a] ∧ getConn cell pinB = [b] ∧
      getConn cell pinY = [y] ∧
      st1 = { st with g := ((st.g.add_edge a y).add_edge b y).setTyp y tAND } := by
  unfold loadCell at h
  rw [hc, if_neg (by decide : ¬tAND = tNOT), if_pos rfl] at h
  cases ha : assert_only_one (getConn cell pinA) with
  | error e =>
    rw [ha, exc_bind_error] at h
    cases h
  | ok a =>
    rw [ha, exc_bind_ok] at h
    cases hb : assert_only_one (getConn cell pinB) with
    | error e =>
      rw [hb, exc_bind_error] at h
      cases h
    | ok b =>
      rw [hb, exc_bind_ok] at h
      cases hy : assert_only_one (getConn cell pinY) with
      | error e =>
        rw [hy, exc_bind_error] at h
        cases h
      | ok y =>
        rw [hy, exc_bind_ok] at h
        injection h with h1
        exact ⟨a, b, y, assert_only_one_ok ha, assert_only_one_ok hb,
          assert_only_one_ok hy, h1.symm⟩

/-- Inversion of a successful `DFF` cell load, at the graph level. -/
theorem loadCell_dff_g (clk : Nat) (st st1 : LoadState) (cell : Cell)
    (hc : cell.ctype = tDFF) (h : loadCell clk st cell = .ok st1) :
    ∃ d q, getConn cell pinQ = [q] ∧
      st1.g = (st.g.setTyp q tDFF).setInput q d := by
  unfold loadCell at h
  rw [hc, if_neg (by decide : ¬tDFF = tNOT),
    if_neg (by decide : ¬tDFF = tAND), if_pos rfl] at h
  cases hcc : assert_only_one (getConn cell pinC) with
  | error e =>
    rw [hcc, exc_bind_error] at h
    cases h
  | ok cc =>
    rw [hcc, exc_bind_ok] at h
    cases hdd : assert_only_one (getConn cell pinD) with
    | error e =>
      rw [hdd, exc_bind_error] at h
      cases h
    | ok d =>
      rw [hdd, exc_bind_ok] at h
      cases hqq : assert_only_one (getConn cell pinQ) with
      | error e =>
        rw [hqq, exc_bind_error] at h
        cases h
      | ok q =>
        rw [hqq, exc_bind_ok] at h
        by_cases hclk : cc = clk
        · rw [if_pos hclk] at h
          by_cases hqn : q ∈ st.g.nodes
          · rw [if_pos hqn] at h
            injection h with h1
            exact ⟨d, q, assert_only_one_ok hqq, by rw [← h1]⟩
          · rw [if_neg hqn] at h
            cases h
        · rw [if_neg hclk] at h
          cases h

/-- Loading one cell that neither outputs onto node `y` (pin Y of a gate,
pin Q of a register) disturbs neither `y`'s predecessor list nor its
type attribute, and keeps `y` a node. -/
theorem loadCell_preserves_other (clk : Nat) (st st1 : LoadState)
    (cell : Cell) (y : Nat) (hy : y ∈ st.g.nodes)
    (hgate : (cell.ctype = tNOT ∨ cell.ctype = tAND) → y ∉ getConn cell pinY)
    (hdffq : cell.ctype = tDFF → y ∉ getConn cell pinQ)
    (h : loadCell clk st cell = .ok st1) :
    st1.g.preds y = st.g.preds y ∧ st1.g.typ y = st.g.typ y ∧
      y ∈ st1.g.nodes := by
  by_cases hnotc : cell.ctype = tNOT
  · obtain ⟨a2, y2, ha2, hy2, hst⟩ := loadCell_not_inv clk st st1 cell hnotc h
    have hyne : y ≠ y2 := fun he => hgate (Or.inl hnotc)
      (by rw [hy2, he]; exact List.mem_singleton_self y2)
    obtain ⟨hp2, ht2, hn2⟩ := add_edge_preserves_at st.g a2 y2 y hy hyne
    subst hst
    refine ⟨hp2, ?_, hn2⟩
    show ((st.g.add_edge a2 y2).setTyp y2 tNOT).typ y = st.g.typ y
    rw [setTyp_typ_ne _ _ _ _ hyne]
    exact ht2
  · by_cases handc : cell.ctype = tAND
    · obtain ⟨a2, b2, y2, ha2, hb2, hy2, hst⟩ :=
        loadCell_and_inv clk st st1 cell handc h
      have hyne : y ≠ y2 := fun he => hgate (Or.inr handc)
        (by rw [hy2, he]; exact List.mem_singleton_self y2)
      obtain ⟨hp2, ht2, hn2⟩ := add_edge_preserves_at st.g a2 y2 y hy hyne
      obtain ⟨hp3, ht3, hn3⟩ :=
        add_edge_preserves_at (st.g.add_edge a2 y2) b2 y2 y hn2 hyne
      subst hst
      refine ⟨hp3.trans hp2, ?_, hn3⟩
      show (((st.g.add_edge a2 y2).add_edge b2 y2).setTyp y2 tAND).typ y =
        st.g.typ y
      rw [setTyp_typ_ne _ _ _ _ hyne]
      exact ht3.trans ht2
    · by_cases hdffc : cell.ctype = tDFF
      · obtain ⟨d, q, hq, hgeq⟩ := loadCell_dff_g clk st st1 cell hdffc h
        have hyq : y ≠ q := fun he => hdffq hdffc
          (by rw [hq, he]; exact List.mem_singleton_self q)
        refine ⟨?_, ?_, ?_⟩
        · rw [hgeq]
          rfl
        · rw [hgeq]
          exact setTyp_typ_ne st.g q tDFF y hyq
        · rw [hgeq]
          exact hy
      · rw [loadCell_unsupported clk st cell hnotc handc hdffc] at h
        injection h with h1
        subst h1
        exact ⟨rfl, rfl, hy⟩

/-- Loading any list of cells, none of which outputs onto node `y`,
preserves `y`'s predecessor list and type attribute. -/
theorem loadCells_preserve (clk : Nat) (y : Nat) :
    ∀ (cells : List Cell) (st st1 : LoadState),
      loadCells clk st cells = .ok st1 → y ∈ st.g.nodes →
      (∀ c2 ∈ cells,
        ((c2.ctype = tNOT ∨ c2.ctype = tAND) → y ∉ getConn c2 pinY) ∧
        (c2.ctype = tDFF → y ∉ getConn c2 pinQ)) →
      st1.g.preds y = st.g.preds y ∧ st1.g.typ y = st.g.typ y := by
  intro cells
  induction cells with
  | nil =>
    intro st st1 h hy hcells
    cases h
    exact ⟨rfl, rfl⟩
  | cons c2 rest ih =>
    intro st st1 h hy hcells
    simp only [loadCells] at h
    cases hl : loadCell clk st c2 with
    | error e =>
      rw [hl, exc_bind_error] at h
      cases h
    | ok st2 =>
      rw [hl, exc_bind_ok] at h
      have hc2 := hcells c2 (List.mem_cons_self c2 rest)
      obtain ⟨hp2, ht2, hy2⟩ :=
        loadCell_preserves_other clk st st2 c2 y hy hc2.1 hc2.2 hl
      have hrest := ih st2 st1 h hy2
        (fun c3 hc3 => hcells c3 (List.mem_cons_of_mem c2 hc3))
      exact ⟨hrest.1.trans hp2, hrest.2.trans ht2⟩

/-- The combinational fold splits around any position of the order: the
tail runs from the state the prefix accumulated. -/
theorem combC_append (c : Circuit) :
    ∀ (l1 l2 : List Nat) (v : Nat → Bool),
      combC c (l1 ++ l2) v = combC c l1 v >>= fun w => combC c l2 w := by
  intro l1
  induction l1 with
  | nil =>
    intro l2 v
    exact (exc_bind_ok v _).symm
  | cons n rest ih =>
    intro l2 v
    show combC c (n :: (rest ++ l2)) v = _
    simp only [combC]
    cases c.typ n with
    | none => exact ih l2 v
    | some t =>
      by_cases hdff : t = tDFF
      · simp only [hdff, if_pos rfl]
        exact ih l2 v
      · by_cases hnot : t = tNOT
        · simp only [hnot, tNOT, tDFF]
          simp only [if_neg (by decide : ¬("NOT" : String) = "DFF"), if_pos rfl]
          cases hp : c.preds n with
          | nil => rfl
          | cons p ps =>
            cases ps with
            | nil => exact ih l2 (updF v n (!(v p)))
            | cons q qs => rfl
        · by_cases hand : t = tAND
          · simp only [hand, tAND, tDFF, tNOT]
            simp only [if_neg (by decide : ¬("AND" : String) = "DFF"),
              if_neg (by decide : ¬("AND" : String) = "NOT"), if_pos rfl]
            cases hp : c.preds n with
            | nil => rfl
            | cons p ps =>
              cases ps with
              | nil => rfl
              | cons q qs =>
                cases qs with
                | nil => exact ih l2 (updF v n (v p && v q))
                | cons r rs => rfl
          · simp only [if_neg hdff, if_neg hnot, if_neg hand]
            rfl

/-- The same split for the backend-generic combinational fold. -/
theorem combE_append {β : Type} (B : BooleanBackend β) (c : Circuit) :
    ∀ (l1 l2 : List Nat) (ev : Nat → β),
      combE B c (l1 ++ l2) ev = combE B c l1 ev >>= fun w => combE B c l2 w := by
  intro l1
  induction l1 with
  | nil =>
    intro l2 ev
    exact (exc_bind_ok ev _).symm
  | cons n rest ih =>
    intro l2 ev
    show combE B c (n :: (rest ++ l2)) ev = _
    simp only [combE]
    cases c.typ n with
    | none => exact ih l2 ev
    | some t =>
      by_cases hdff : t = tDFF
      · simp only [hdff, if_pos rfl]
        exact ih l2 ev
      · by_cases hnot : t = tNOT
        · simp only [hnot, tNOT, tDFF]
          simp only [if_neg (by decide : ¬("NOT" : String) = "DFF"), if_pos rfl]
          cases hp : c.preds n with
          | nil => rfl
          | cons p ps =>
            cases ps with
            | nil => exact ih l2 (updF ev n (B.Not (ev p)))
            | cons q qs => rfl
        · by_cases hand : t = tAND
          · simp only [hand, tAND, tDFF, tNOT]
            simp only [if_neg (by decide : ¬("AND" : String) = "DFF"),
              if_neg (by decide : ¬("AND" : String) = "NOT"), if_pos rfl]
            cases hp : c.preds n with
            | nil => rfl
            | cons p ps =>
              cases ps with
              | nil => rfl
              | cons q qs =>
                cases qs with
                | nil => exact ih l2 (updF ev n (B.And (ev p) (ev q)))
                | cons r rs => rfl
          · simp only [if_neg hdff, if_neg hnot, if_neg hand]
            rfl

/-- C5: And operand order — for an And node of the fully loaded graph:
loading an AND cell whose output node y has no stored predecessors yet
(the single-driver situation of a valid netlist; y may already be a node,
e.g. as an operand of an earlier-listed cell) stores the predecessor
list `[a, b]` in exactly the construction-time order A-operand then
B-operand (networkx adjacency dicts preserve insertion order); loading
every remaining cell of the netlist — none of which drives y — leaves
that list and the AND tag intact in the final graph; and whenever
evaluation reaches the node, at any position of any evaluation order
and from any intermediate state, in the plaintext or the backend-generic
evaluator, the value written at y is exactly
`backend.And(value(a), value(b))` with the operands threaded in the
captured order.  The last two conjuncts split any full evaluation pass
around the node's position, so this covers each evaluation the full
fold performs. -/
theorem and_operand_order (clk : Nat) (st st1 stF : LoadState) (cell : Cell)
    (post : List Cell) (a b y : Nat)
    (hc : cell.ctype = tAND) (ha : getConn cell pinA = [a])
    (hb : getConn cell pinB = [b]) (hy : getConn cell pinY = [y])
    (hpy : st.g.preds y = []) (hya : y ≠ a) (hyb : y ≠ b) (hab : a ≠ b)
    (hload : loadCell clk st cell = .ok st1)
    (hpost : ∀ c2 ∈ post,
      ((c2.ctype = tNOT ∨ c2.ctype = tAND) → y ∉ getConn c2 pinY) ∧
      (c2.ctype = tDFF → y ∉ getConn c2 pinQ))
    (hrest : loadCells clk st1 post = .ok stF) :
    stF.g.preds y = [a, b] ∧ stF.g.typ y = some tAND ∧
    (∀ (v : Nat → Bool) (rest : List Nat),
      combC (toCircuit stF) (y :: rest) v =
        combC (toCircuit stF) rest (updF v y (v a && v b))) ∧
    (∀ (β : Type) (B : BooleanBackend β) (ev : Nat → β) (rest : List Nat),
      combE B (toCircuit stF) (y :: rest) ev =
        combE B (toCircuit stF) rest (updF ev y (B.And (ev a) (ev b)))) ∧
    (∀ (l1 l2 : List Nat) (v : Nat → Bool),
      combC (toCircuit stF) (l1 ++ l2) v =
        combC (toCircuit stF) l1 v >>= fun w => combC (toCircuit stF) l2 w) ∧
    (∀ (β : Type) (B : BooleanBackend β) (l1 l2 : List Nat) (ev : Nat → β),
      combE B (toCircuit stF) (l1 ++ l2) ev =
        combE B (toCircuit stF) l1 ev >>= fun w => combE B (toCircuit stF) l2 w) := by
  rw [loadCell_and clk st cell a b y hc ha hb hy] at hload
  injection hload with hst
  subst hst
  have h1 : (st.g.add_edge a y).preds y = [a] :=
    add_edge_preds_start st.g a y hya hpy
  have hymem : y ∈ (st.g.add_edge a y).nodes :=
    (mem_add_edge st.g a y y).mpr (Or.inr (Or.inr rfl))
  have hbn : b ∉ (st.g.add_edge a y).preds y := by
    rw [h1]
    simp [Ne.symm hab]
  have h2 : ((st.g.add_edge a y).add_edge b y).preds y = [a, b] := by
    rw [add_edge_preds_append _ b y hymem hbn, h1]
    rfl
  have hymem2 : y ∈ ((st.g.add_edge a y).add_edge b y).nodes :=
    (mem_add_edge _ b y y).mpr (Or.inl hymem)
  have hpres := loadCells_preserve clk y post
    { st with g := ((st.g.add_edge a y).add_edge b y).setTyp y tAND } stF
    hrest hymem2 hpost
  have hprF : stF.g.preds y = [a, b] := by
    rw [hpres.1]
    exact h2
  have htyF : stF.g.typ y = some tAND := by
    rw [hpres.2]
    simp [Graph.setTyp, updF]
  have htyC : (toCircuit stF).typ y = some tAND := htyF
  have hprC : (toCircuit stF).preds y = [a, b] := hprF
  refine ⟨hprF, htyF, ?_, ?_,
    fun l1 l2 v => combC_append (toCircuit stF) l1 l2 v,
    fun β B l1 l2 ev => combE_append B (toCircuit stF) l1 l2 ev⟩
  · intro v rest
    simp only [combC, htyC, hprC]
    simp [tAND, tNOT, tDFF]
  · intro β B ev rest
    simp only [combE, htyC, hprC]
    simp [tAND, tNOT, tDFF]

/-- The loader state after the NOT cell that consumes signal 3: node 3
pre-exists, untyped and with no predecessors, before the AND cell whose
output it is loads. -/
def stPre : LoadState := okOr initState (loadCells 0 initState [exNot34Cell])

/-- The state after additionally loading the AND cell with output 3. -/
def stMid : LoadState := okOr initState (loadCell 0 stPre exAndCell)

/-- The fully loaded state, with one more gate after the AND cell. -/
def stFull : LoadState := okOr initState (loadCells 0 stMid [exNotCell])

theorem and_operand_order_witness : stFull.g.preds 3 = [1, 2] :=
  (and_operand_order 0 stPre stMid stFull exAndCell [exNotCell] 1 2 3
    rfl rfl rfl rfl (by decide) (by decide) (by decide) (by decide) rfl
    (by decide) rfl).1
/-- C9: an And cell binding the same signal to A and B produces only one
stored edge (a DiGraph keeps at most one edge per ordered pair), so the
node has exactly one predecessor and the two-predecessor assertion in
step() fires; concretely, the whole run on such a one-cell netlist fails
with the assertion at the And node. -/
theorem and_same_signal_assertion (clk : Nat) (st st1 : LoadState)
    (cell : Cell) (a y : Nat) (hc : cell.ctype = tAND)
    (ha : getConn cell pinA = [a]) (hb : getConn cell pinB = [a])
    (hy : getConn cell pinY = [y]) (hfresh : y ∉ st.g.nodes) (hya : y ≠ a)
    (hload : loadCell clk st cell = .ok st1) :
    st1.g.preds y = [a] ∧
    (∀ v : Nat → Bool,
      combC (toCircuit st1) [y] v = .error (.badPreds y)) ∧
    (runNetlist 0 [exAndSameCell]).map (fun v => v 0) =
      .error (.badPreds 2) := by
  rw [loadCell_and clk st cell a a y hc ha hb hy] at hload
  injection hload with hst
  subst hst
  have hymem : y ∈ (st.g.add_edge a y).nodes :=
    (mem_add_edge st.g a y y).mpr (Or.inr (Or.inr rfl))
  have h1 : (st.g.add_edge a y).preds y = [a] :=
    add_edge_preds_fresh st.g a y hfresh hya
  have h2 : ((st.g.add_edge a y).add_edge a y).preds y = [a] := by
    rw [add_edge_preds_dup _ a y hymem
      (by rw [h1]; exact List.mem_singleton_self a)]
    exact h1
  have hty : (toCircuit { st with
      g := ((st.g.add_edge a y).add_edge a y).setTyp y tAND }).typ y =
        some tAND := by
    simp [toCircuit, Graph.setTyp, updF]
  have hpr : (toCircuit { st with
      g := ((st.g.add_edge a y).add_edge a y).setTyp y tAND }).preds y =
        [a] := h2
  refine ⟨h2, ?_, rfl⟩
  intro v
  simp only [combC, hty, hpr]
  simp [tAND, tNOT, tDFF]

/-- The loader state after loading the AND cell with coincident operands. -/
def stAndSame : LoadState := okOr initState (loadCell 0 initState exAndSameCell)

theorem and_same_signal_assertion_witness : stAndSame.g.preds 2 = [1] :=
  (and_same_signal_assertion 0 initState stAndSame exAndSameCell 1 2 rfl rfl
    rfl rfl (by decide) (by decide) rfl).1

/-- C6: a netlist in which some cell connection binds two signals where
exactly one is required (here the A pin of a NOT cell, after any prefix of
well-loaded cells) fails `assert_only_one`: loading aborts with that
LoadError, the pipeline yields no circuit, and no cycle runs. -/
theorem double_binding_load_error (clk : Nat) (pre rest : List Cell)
    (cell : Cell) (st1 : LoadState) (s t : Nat)
    (hpre : loadCells clk initState pre = .ok st1)
    (hc : cell.ctype = tNOT) (ha : getConn cell pinA = [s, t]) :
    (∀ (u w : Nat) (l : List Nat),
      assert_only_one (u :: w :: l) = .error .notOne) ∧
    loadNetlist clk (pre ++ cell :: rest) = .error .notOne ∧
    runNetlist clk (pre ++ cell :: rest) = .error .notOne := by
  have hload : loadCells clk initState (pre ++ cell :: rest) =
      .error .notOne := by
    rw [loadCells_append, hpre, exc_bind_ok]
    show loadCells clk st1 (cell :: rest) = _
    simp only [loadCells]
    rw [loadCell_not_double clk st1 cell s t hc ha, exc_bind_error]
  refine ⟨fun u w l => rfl, ?_, ?_⟩
  · unfold loadNetlist
    rw [hload, exc_bind_error]
  · unfold runNetlist loadNetlist
    rw [hload, exc_bind_error, exc_bind_error]

/-- The loader state after loading the single well-formed NOT cell. -/
def stNot : LoadState := okOr initState (loadCells 0 initState [exNotCell])

theorem double_binding_load_error_witness :
    loadNetlist 0 ([exNotCell] ++ exBadNotCell :: []) = .error .notOne :=
  (double_binding_load_error 0 [exNotCell] [] exBadNotCell stNot 1 4
    rfl rfl rfl).2.1

/-- C3 counterexample: a netlist where an unsupported XOR cell's output
signal 5 is consumed by a NOT cell loads, passes the structural checks
and runs a full cycle WITHOUT any error: signal 5 is treated as an
untyped primary input holding false and the consumer computes
`not false = true` — the run does not fail as the claim states. -/
theorem unsupported_consumer_run_succeeds :
    (runNetlist 0 [exXorCell, exConsumerCell]).map (fun v => (v 5, v 6)) =
      .ok (false, true) := rfl

/-- C3 amended: an unsupported cell type is recorded in the report set
without aborting loading and contributes no node or edge; but a gate
consuming its output signal does NOT make the run fail — the signal
becomes an untyped input holding false and evaluation succeeds; only a
register whose data input is the missing signal fails, with a
missing-node KeyError at commit time. -/
theorem unsupported_cell_amended :
    (∀ (clk : Nat) (st : LoadState) (cell : Cell),
      cell.ctype ≠ tNOT → cell.ctype ≠ tAND → cell.ctype ≠ tDFF →
      loadCell clk st cell =
        .ok { st with unhandled :=
          if cell.ctype ∈ st.unhandled then st.unhandled
          else st.unhandled ++ [cell.ctype] }) ∧
    (runNetlist 0 [exXorCell, exConsumerCell]).map (fun v => v 6) =
      .ok true ∧
    (runNetlist 0 [exXor7Cell, exNot34Cell, exDff73Cell]).map (fun v => v 0) =
      .error (.keyError 7) :=
  ⟨fun clk st cell h1 h2 h3 => loadCell_unsupported clk st cell h1 h2 h3,
   rfl, rfl⟩

theorem unsupported_cell_amended_witness :
    loadCell 0 initState exXorCell =
      .ok { initState with unhandled :=
        if exXorCell.ctype ∈ initState.unhandled then initState.unhandled
        else initState.unhandled ++ [exXorCell.ctype] } :=
  unsupported_cell_amended.1 0 initState exXorCell (by decide) (by decide)
    (by decide)

/-- C4 counterexample: the circuit NOT 1→2, NOT 3→4, DFF (D=2, Q=3) is
weakly connected once the register's data-input edge 2→3 is counted, yet
the loader records no such edge, so the connectivity assert fails and the
netlist is REJECTED — against the claim that a circuit whose connectivity
relies on a register's data-input edge is accepted. -/
theorem feedback_connectivity_rejected :
    (loadNetlist 0 [exNotCell, exNot34Cell, exDff23Cell]).map (fun _ => 0) =
      .error .notConnected := rfl

/-- C4 amended: structural validation aborts (with the corresponding
StructuralError) exactly when the constructed graph — whose edges come
only from NOT/AND operand references; a DFF cell leaves the edge set and
node set untouched — is not weakly connected or not acyclic.  A circuit
whose weak connectivity relies on a register's data-input edge is
therefore rejected. -/
theorem structural_checks_amended :
    (∀ st : LoadState, (∃ c, structuralChecks st = .ok c) ↔
      (WeaklyConnected st.g ∧ Acyclic st.g)) ∧
    (∀ (clk : Nat) (st : LoadState) (cell : Cell) (st1 : LoadState),
      cell.ctype = tDFF → loadCell clk st cell = .ok st1 →
      st1.g.preds = st.g.preds ∧ st1.g.nodes = st.g.nodes) := by
  constructor
  · intro st
    unfold structuralChecks
    by_cases h1 : is_weakly_connected st.g = true
    · rw [if_pos h1]
      by_cases h2 : is_directed_acyclic_graph st.g = true
      · rw [if_pos h2]
        constructor
        · intro _
          exact ⟨(is_weakly_connected_iff st.g).mp h1,
            (is_directed_acyclic_graph_iff st.g).mp h2⟩
        · intro _
          exact ⟨toCircuit st, rfl⟩
      · rw [if_neg h2]
        constructor
        · intro hex
          obtain ⟨c, hcc⟩ := hex
          cases hcc
        · intro hpq
          exact absurd ((is_directed_acyclic_graph_iff st.g).mpr hpq.2) h2
    · rw [if_neg h1]
      constructor
      · intro hex
        obtain ⟨c, hcc⟩ := hex
        cases hcc
      · intro hpq
        exact absurd ((is_weakly_connected_iff st.g).mpr hpq.1) h1
  · exact fun clk st cell st1 hc h => loadCell_dff_preserves clk st cell st1 hc h

theorem structural_checks_amended_witness :
    (∃ c, structuralChecks stNot = .ok c) ∧
    (okOr initState (loadCell 0 stNot exDff12Cell)).g.nodes =
      stNot.g.nodes :=
  ⟨(structural_checks_amended.1 stNot).mpr
      ⟨(is_weakly_connected_iff stNot.g).mp (by decide),
       (is_directed_acyclic_graph_iff stNot.g).mp (by decide)⟩,
   (structural_checks_amended.2 0 stNot exDff12Cell
      (okOr initState (loadCell 0 stNot exDff12Cell)) rfl rfl).2⟩
